import Mathlib

/-!
Verification of the sequelize-db-meta key-value metadata store.

The development shallowly embeds the core module (the
`SequelizeDbMetaInstance` class, its `_SequelizeDbMetaPrefixInstance`
decorator and the module-level facade): rows of the backing table are
modelled as a list of records, the current clock is an explicit integer
parameter (one `new Date()` per call site), JSON values are a closed
inductive tree, and each public operation is a pure function over the
row list translated from the source.
-/

namespace SequelizeDbMeta

/-- A JavaScript/JSON value as stored and decoded by the meta store.
`undefined` models JavaScript `undefined` (a value that was absent), which the
envelope encoding keeps distinguishable from `null`. An object's field
list is kept in the object's own-property enumeration order as
JavaScript reports it (integer-like keys first in ascending order, then
string keys in insertion order); numbers are modelled as integers (no
claim in this development depends on fractional values). -/
inductive JValue where
  | undefined : JValue
  | null : JValue
  | bool (b : Bool) : JValue
  | num (n : Int) : JValue
  | str (s : String) : JValue
  | obj (fields : List (String × JValue)) : JValue
  | arr (elems : List JValue) : JValue

mutual

/-- A value is JSON-representable when it contains no `undefined`
anywhere (`JSON.stringify` round-trips exactly these). -/
def Representable : JValue → Bool
  | .undefined => false
  | .null => true
  | .bool _ => true
  | .num _ => true
  | .str _ => true
  | .obj fs => RepresentableFields fs
  | .arr es => RepresentableElems es

def RepresentableFields : List (String × JValue) → Bool
  | [] => true
  | (_, v) :: rest => Representable v && RepresentableFields rest

def RepresentableElems : List JValue → Bool
  | [] => true
  | e :: rest => Representable e && RepresentableElems rest

end

mutual

/-- What `JSON.parse (JSON.stringify v)` yields on the tree `v`:
object fields whose value is `undefined` are dropped, array elements that
are `undefined` become `null`; everything representable is unchanged. -/
def normalize : JValue → JValue
  | .obj fs => .obj (normalizeFields fs)
  | .arr es => .arr (normalizeElems es)
  | v => v

def normalizeFields : List (String × JValue) → List (String × JValue)
  | [] => []
  | (k, v) :: rest =>
    match v with
    | .undefined => normalizeFields rest
    | w => (k, normalize w) :: normalizeFields rest

def normalizeElems : List JValue → List JValue
  | [] => []
  | e :: rest =>
    match e with
    | .undefined => .null :: normalizeElems rest
    | w => normalize w :: normalizeElems rest

end

mutual

theorem normalize_eq_self : (v : JValue) → Representable v = true → normalize v = v
  | .undefined, h => by simp [Representable] at h
  | .null, _ => rfl
  | .bool _, _ => rfl
  | .num _, _ => rfl
  | .str _, _ => rfl
  | .obj fs, h => by
    simp only [normalize]
    exact congrArg JValue.obj (normalizeFields_eq_self fs (by simpa [Representable] using h))
  | .arr es, h => by
    simp only [normalize]
    exact congrArg JValue.arr (normalizeElems_eq_self es (by simpa [Representable] using h))

theorem normalizeFields_eq_self :
    (fs : List (String × JValue)) → RepresentableFields fs = true → normalizeFields fs = fs
  | [], _ => rfl
  | (k, v) :: rest, h => by
    have hv : Representable v = true := by
      have := h; simp [RepresentableFields, Bool.and_eq_true] at this; exact this.1
    have hrest : RepresentableFields rest = true := by
      have := h; simp [RepresentableFields, Bool.and_eq_true] at this; exact this.2
    cases v with
    | undefined => simp [Representable] at hv
    | null => simp [normalizeFields, normalize, normalizeFields_eq_self rest hrest]
    | bool b => simp [normalizeFields, normalize, normalizeFields_eq_self rest hrest]
    | num n => simp [normalizeFields, normalize, normalizeFields_eq_self rest hrest]
    | str s => simp [normalizeFields, normalize, normalizeFields_eq_self rest hrest]
    | obj fs2 =>
      simp [normalizeFields, normalizeFields_eq_self rest hrest,
        normalize_eq_self (JValue.obj fs2) hv]
    | arr es2 =>
      simp [normalizeFields, normalizeFields_eq_self rest hrest,
        normalize_eq_self (JValue.arr es2) hv]

theorem normalizeElems_eq_self :
    (es : List JValue) → RepresentableElems es = true → normalizeElems es = es
  | [], _ => rfl
  | e :: rest, h => by
    have he : Representable e = true := by
      have := h; simp [RepresentableElems, Bool.and_eq_true] at this; exact this.1
    have hrest : RepresentableElems rest = true := by
      have := h; simp [RepresentableElems, Bool.and_eq_true] at this; exact this.2
    cases e with
    | undefined => simp [Representable] at he
    | null => simp [normalizeElems, normalize, normalizeElems_eq_self rest hrest]
    | bool b => simp [normalizeElems, normalize, normalizeElems_eq_self rest hrest]
    | num n => simp [normalizeElems, normalize, normalizeElems_eq_self rest hrest]
    | str s => simp [normalizeElems, normalize, normalizeElems_eq_self rest hrest]
    | obj fs2 =>
      simp [normalizeElems, normalizeElems_eq_self rest hrest,
        normalize_eq_self (JValue.obj fs2) he]
    | arr es2 =>
      simp [normalizeElems, normalizeElems_eq_self rest hrest,
        normalize_eq_self (JValue.arr es2) he]

end

/-- The `value` column setter (`encodeValue` in the source): the stored
text is `JSON.stringify \x7bvalue: value\x7d`; we model the stored text by its
parse tree. `JSON.stringify` drops an `undefined` top-level field (so the
envelope for `undefined` is the empty object) and normalizes nested
non-representable parts. -/
def encodeValue (v : JValue) : JValue :=
  match v with
  | .undefined => .obj []
  | w => .obj [("value", normalize w)]

/-- Field lookup in a JS object (`o.name`): `undefined` when absent. -/
def lookupField (fs : List (String × JValue)) (a : String) : Option JValue :=
  (fs.find? (fun f => f.1 == a)).map (fun f => f.2)

/-- The `value` column getter (`parseValue` in the source): parse the
stored text and project the `value` field of the envelope; a missing
field reads back as `undefined`. -/
def parseValue (stored : JValue) : JValue :=
  match stored with
  | .obj fs => (lookupField fs "value").getD .undefined
  | _ => .undefined

/-- One persisted row of the meta table: primary key, the stored `value`
text (kept as its parse tree, always an envelope object), the nullable
`expires` timestamp (integer seconds), and any extra schema columns
written through the `data` argument of `put`. -/
structure Row where
  key : String
  value : JValue
  expires : Option Int
  extra : List (String × JValue)

/-- The abstract persistent table: the list of physically stored rows. -/
abbrev DB := List Row

/-- The primary-key invariant of the table: no two rows share a key. -/
def WellFormed (db : DB) : Prop := (List.map Row.key db).Nodup

/-- The liveness filter `expires IS NULL OR expires > now` applied by
every read/update/delete path of the source. -/
def isLive (now : Int) (r : Row) : Bool :=
  match r.expires with
  | none => true
  | some e => now < e

/-- The `gc` predicate `expires <= now` (SQL `<=` is false on NULL). -/
def isExpired (now : Int) (r : Row) : Bool :=
  match r.expires with
  | none => false
  | some e => e ≤ now

/-- Result shape of the internal `_get`: decoded value plus found flag
(the source returns `\x7bvalue: null, found: false\x7d` when no live row
matches). -/
structure GetResult where
  value : JValue
  found : Bool

/-- `_get`: `findOne` with the key and liveness predicate, decoding the
`value` column through its getter. -/
def _get (db : DB) (now : Int) (k : String) : GetResult :=
  match db.find? (fun r => r.key == k && isLive now r) with
  | none => ⟨.null, false⟩
  | some r => ⟨parseValue r.value, true⟩

def getOrDefault (db : DB) (now : Int) (k : String) (dflt : JValue) : JValue :=
  let v := _get db now k
  if v.found then v.value else dflt

def getOrNull (db : DB) (now : Int) (k : String) : JValue :=
  getOrDefault db now k .null

/-- Domain errors surfaced by the store (`key not found: ...`). -/
inductive MetaError where
  | keyNotFound (key : String) : MetaError
deriving DecidableEq

def get (db : DB) (now : Int) (k : String) : Except MetaError JValue :=
  let v := _get db now k
  if v.found then .ok v.value else .error (.keyNotFound k)

def has (db : DB) (now : Int) (k : String) : Bool :=
  (_get db now k).found

/-- `delete`: destroy rows matching the key and liveness predicate;
returns the remaining table and whether the affected count was positive. -/
def delete (db : DB) (now : Int) (k : String) : DB × Bool :=
  let remaining := db.filter (fun r => !(r.key == k && isLive now r))
  (remaining, remaining.length < db.length)

/-- The `data` argument of `put`/`assign`: its fields are merged by
`Object.assign` over the base object `\x7bkey, value, expires: null\x7d`, so a
caller-supplied `key`, `value` or `expires` field overrides the
corresponding built-in column (the value override then passes through
the column setter like any stored value), and its remaining fields are
written to the extra schema columns. -/
structure PutData where
  keyOverride : Option String
  valueOverride : Option JValue
  expiresOverride : Option (Option Int)
  extra : List (String × JValue)

/-- `put`/`assign` called with `data` absent. -/
def noData : PutData := ⟨none, none, none, []⟩

/-- Insert-or-replace on the primary key, as the backing table's
`upsert` provides it: an existing row with the same key is replaced
wholesale, otherwise the row is appended. -/
def upsert (db : DB) (r : Row) : DB :=
  if db.any (fun x => x.key == r.key) then
    db.map (fun x => if x.key == r.key then r else x)
  else
    db ++ [r]

/-- `put`: upsert of `Object.assign(\x7bkey, value, expires: null\x7d, data)`,
the (possibly overridden) value passing through the column setter. -/
def put (db : DB) (k : String) (v : JValue) (d : PutData) : DB :=
  upsert db ⟨d.keyOverride.getD k, encodeValue (d.valueOverride.getD v),
    d.expiresOverride.getD none, d.extra⟩

/-- The runtime errors of the modelled JavaScript fragments: calling a
non-callable, and assigning an invalid array length. -/
inductive JsError where
  | typeError : JsError
  | rangeError : JsError
deriving DecidableEq

/-- The row update performed by `expire`: rows matching the key and the
liveness predicate get `expires := now + time`, others are untouched. -/
def expireUpd (now : Int) (k : String) (t : Int) (r : Row) : Row :=
  if r.key == k && isLive now r then { r with expires := some (now + t) } else r

/-- `expire`: conditional update of `expires` to `now + time` seconds on
the live row; rejects with `key not found` when the affected count is
below one. -/
def expire (db : DB) (now : Int) (k : String) (t : Int) : Except MetaError DB :=
  let affected := (db.filter (fun r => r.key == k && isLive now r)).length
  if affected < 1 then .error (.keyNotFound k)
  else .ok (db.map (expireUpd now k t))

/-- `gc`: destroy every row with `expires <= now` (NULL never matches). -/
def gc (db : DB) (now : Int) : DB :=
  db.filter (fun r => !isExpired now r)

/-- `clear`: truncate the table. -/
def clear (_db : DB) : DB := []

/-- The wildcard translation applied to each pattern character:
`?` becomes the engine's single-character wildcard `_`, `*` becomes the
multi-character wildcard `%`, everything else (including a literal `%`
or `_`) passes through unchanged. -/
def translateChar (c : Char) : Char :=
  if c = '?' then '_' else if c = '*' then '%' else c

/-- `pattern.replace(/\?/g, '_').replace(/\*/g, '%')`: since both
rewrites are single-character and the first never produces `*`, the
sequential global replaces equal a character map. -/
def translatePattern (p : String) : String :=
  String.mk (p.data.map translateChar)

/-- SQL `LIKE` matching: `%` matches any sequence (the rest of the
pattern must match some suffix of the string), `_` exactly one character,
all other pattern characters match themselves. -/
def likeMatch : List Char → List Char → Bool
  | [], s => s.isEmpty
  | p :: ps, s =>
    if p = '%' then
      s.tails.any (fun t => likeMatch ps t)
    else
      match s with
      | [] => false
      | c :: s' => if p = '_' then likeMatch ps s' else p == c && likeMatch ps s'

/-- The optional `where` argument of `count`/`all`: its fields are merged
by `Object.assign` over the built-in predicate object, so a caller can
replace the liveness condition on `expires` and/or the pattern condition
on `key` (that is how the tests count expired rows). -/
structure WhereOverride where
  expiresCond : Option (Option Int → Bool)
  keyCond : Option (String → Bool)

/-- `count`/`all` called with `where` absent. -/
def noWhere : WhereOverride := ⟨none, none⟩

/-- The combined row predicate of `count`/`all`: liveness on `expires`
(unless overridden), and the translated wildcard pattern on `key` when a
pattern is given (unless overridden). -/
def rowPred (now : Int) (pat : Option String) (w : WhereOverride) (r : Row) : Bool :=
  (match w.expiresCond with
   | some f => f r.expires
   | none => isLive now r) &&
  (match w.keyCond with
   | some f => f r.key
   | none =>
     match pat with
     | some p => likeMatch (translatePattern p).data r.key.data
     | none => true)

/-- `count`: number of rows satisfying the combined predicate. -/
def count (db : DB) (now : Int) (pat : Option String) (w : WhereOverride) : Nat :=
  (db.filter (rowPred now pat w)).length

/-- A row as `all` returns it: the key plus the decoded value. -/
structure MetaRecord where
  key : String
  value : JValue

/-- `all`: the filtered rows in table order, with optional offset and
limit, each decoded through the value getter. -/
def all (db : DB) (now : Int) (start len : Option Nat) (pat : Option String)
    (w : WhereOverride) : List MetaRecord :=
  let kept := (db.filter (rowPred now pat w)).map (fun r => MetaRecord.mk r.key (parseValue r.value))
  let offs := kept.drop (start.getD 0)
  match len with
  | some n => offs.take n
  | none => offs

/-- `_convertKey` of the namespacing decorator: an absent key or pattern
becomes `pfx ++ "*"`, a present one is prefixed. -/
def convertKey (pfx : String) (key : Option String) : String :=
  match key with
  | none => pfx ++ "*"
  | some k => pfx ++ k

/-- The decorator's `get` (delegation with a prefixed key). -/
def prefixGet (pfx : String) (db : DB) (now : Int) (k : String) : Except MetaError JValue :=
  get db now (convertKey pfx (some k))

def prefixGetOrNull (pfx : String) (db : DB) (now : Int) (k : String) : JValue :=
  getOrNull db now (convertKey pfx (some k))

def prefixHas (pfx : String) (db : DB) (now : Int) (k : String) : Bool :=
  has db now (convertKey pfx (some k))

def prefixPut (pfx : String) (db : DB) (k : String) (v : JValue) (d : PutData) : DB :=
  put db (convertKey pfx (some k)) v d

/-- The decorator's `count`: the pattern argument (present or absent) is
rewritten through `_convertKey` before delegation. -/
def prefixCount (pfx : String) (db : DB) (now : Int) (pat : Option String)
    (w : WhereOverride) : Nat :=
  count db now (some (convertKey pfx pat)) w

/-- The decorator's `all`: delegates with the converted pattern, then
replaces each record's `key` by `key.substr(pfx.length)`. -/
def prefixAll (pfx : String) (db : DB) (now : Int) (start len : Option Nat)
    (pat : Option String) (w : WhereOverride) : List MetaRecord :=
  (all db now start len (some (convertKey pfx pat)) w).map
    (fun rec => MetaRecord.mk (rec.key.drop pfx.length) rec.value)

/-- The decorator's own `prefix` method: the new view keeps the same
master and concatenates the prefixes (`_convertKey` of the new prefix). -/
def composePfx (pfx newPfx : String) : String :=
  convertKey pfx (some newPfx)

/-- The dynamic value a JavaScript property read can produce here:
either a plain string or a callable. Only what the `tableName`
accessors need is modelled. -/
inductive JsVal where
  | strVal (s : String) : JsVal
  | fnVal (f : Unit → String) : JsVal

/-- A function-call expression `e()`: calling a string raises
`TypeError: ... is not a function`; calling a function runs it. -/
def callJs : JsVal → Except JsError String
  | .strVal _ => .error .typeError
  | .fnVal f => .ok (f ())

/-- A prefix view as constructed by the source: `prefix` on the root
store yields a view whose `_master` is that root, and `prefix` on a view
reuses the same `_master` with a concatenated prefix, so every view's
master is the root store. -/
structure PrefixView where
  masterTable : String
  pfx : String

/-- `SequelizeDbMetaInstance.prefix(newPrefix)`. -/
def instanceMkView (tableNm newPfx : String) : PrefixView :=
  ⟨tableNm, newPfx⟩

/-- `_SequelizeDbMetaPrefixInstance.prefix(newPrefix)`: same master,
concatenated prefix. -/
def viewMkView (v : PrefixView) (newPfx : String) : PrefixView :=
  ⟨v.masterTable, composePfx v.pfx newPfx⟩

/-- Reading `tableName` on the root store: a property getter whose value
is the `_tableName` string — a string, not a callable. -/
def instanceTableNameProp (tableNm : String) : JsVal :=
  .strVal tableNm

/-- Reading `tableName` on a prefix view: the getter evaluates
`this._master.tableName()` — it reads the master's `tableName` property
and invokes the resulting value as a function. -/
def viewTableName (v : PrefixView) : Except JsError String :=
  callJs (instanceTableNameProp v.masterTable)

/-- Storage state with the at-most-one open transaction the claims
need: the committed table plus the pending table the open transaction
sees. Operations given the transaction handle act on the pending copy;
commit installs it, rollback discards it. -/
structure TxDB where
  committed : DB
  pending : Option DB

def beginTx (s : TxDB) : TxDB := { s with pending := some s.committed }

def rollbackTx (s : TxDB) : TxDB := { s with pending := none }

def commitTx (s : TxDB) : TxDB := ⟨s.pending.getD s.committed, none⟩

/-- The table a call sees, given whether it passes the transaction. -/
def curDB (s : TxDB) (useTx : Bool) : DB :=
  if useTx then s.pending.getD s.committed else s.committed

/-- Writing the table back, inside or outside the transaction. -/
def setDB (s : TxDB) (useTx : Bool) (db : DB) : TxDB :=
  if useTx then { s with pending := some db } else { s with committed := db }

/-- `SequelizeDbMetaInstance.put(key, value, data, transaction)` at the
transaction level: the upsert runs against the state the transaction
argument selects. -/
def putTx (s : TxDB) (useTx : Bool) (k : String) (v : JValue) (d : PutData) : TxDB :=
  setDB s useTx (put (curDB s useTx) k v d)

def getTx (s : TxDB) (useTx : Bool) (now : Int) (k : String) : Except MetaError JValue :=
  get (curDB s useTx) now k

def hasTx (s : TxDB) (useTx : Bool) (now : Int) (k : String) : Bool :=
  has (curDB s useTx) now k

/-- The facade's `put`: the source forwards
`(key, value, transaction)` into the instance signature
`(key, value, data, transaction)`, so the transaction object arrives in
the `data` slot (its own enumerable fields — none of which is named
`key`, `value` or `expires` on a sequelize transaction — merge into the
row) and the upsert itself runs with no transaction option, i.e. against
the committed table. -/
def facadePut (s : TxDB) (k : String) (v : JValue)
    (txnFields : List (String × JValue)) : TxDB :=
  { s with committed := put s.committed k v ⟨none, none, none, txnFields⟩ }

/-! Helper lemmas shared by the claim theorems. -/

theorem lookupField_single (a : String) (x : JValue) : lookupField [(a, x)] a = some x := by
  simp [lookupField, List.find?]

/-- Codec round trip on representable values. -/
theorem parse_encode (v : JValue) (h : Representable v = true) :
    parseValue (encodeValue v) = v := by
  have hne : v ≠ .undefined := by
    intro hv; subst hv; simp [Representable] at h
  have henc : encodeValue v = .obj [("value", normalize v)] := by
    cases v with
    | undefined => exact absurd rfl hne
    | null => rfl
    | bool b => rfl
    | num n => rfl
    | str s => rfl
    | obj fs => rfl
    | arr es => rfl
  rw [henc]
  show (lookupField [("value", normalize v)] "value").getD .undefined = v
  rw [lookupField_single]
  simp [normalize_eq_self v h]

/-- `find?` with a key-guarded predicate over rows none of which has the
key. -/
theorem find?_key_of_not_mem (db : DB) (k : String) (p : Row → Bool)
    (h : ∀ r ∈ db, r.key ≠ k) :
    db.find? (fun r => r.key == k && p r) = none := by
  apply List.find?_eq_none.mpr
  intro x hx
  simp [h x hx]

/-- Mapping a function that fixes every member is the identity. -/
theorem map_eq_self {α : Type} (l : List α) (f : α → α) (h : ∀ a ∈ l, f a = a) :
    l.map f = l := by
  induction l with
  | nil => rfl
  | cons x xs ih =>
    rw [List.map_cons, h x (List.mem_cons_self x xs),
      ih (fun a ha => h a (List.mem_cons_of_mem x ha))]

/-- With the primary-key invariant, `find?` keyed to `k` sees exactly the
one row holding `k`. -/
theorem find?_unique (db : DB) (k : String) (r₀ : Row) (p : Row → Bool)
    (hwf : WellFormed db) (hmem : r₀ ∈ db) (hkey : r₀.key = k) :
    db.find? (fun r => r.key == k && p r) = if p r₀ then some r₀ else none := by
  induction db with
  | nil => cases hmem
  | cons x rest ih =>
    have hwf' : x.key ∉ List.map Row.key rest ∧ WellFormed rest := by
      simpa [WellFormed, List.nodup_cons] using hwf
    rcases List.mem_cons.mp hmem with hx | hx
    · have hkx : x.key = k := by rw [← hx]; exact hkey
      by_cases hp : p x
      · rw [List.find?_cons_of_pos _ (by simp [hkx, hp]), hx, if_pos hp]
      · have hnone : rest.find? (fun r => r.key == k && p r) = none := by
          apply find?_key_of_not_mem
          intro r hr hrk
          apply hwf'.1
          rw [hkx, ← hrk]
          exact List.mem_map_of_mem Row.key hr
        rw [List.find?_cons_of_neg _ (by simp [hp]), hnone, hx, if_neg hp]
    · have hxk : x.key ≠ k := by
        intro hxe
        apply hwf'.1
        rw [hxe, ← hkey]
        exact List.mem_map_of_mem Row.key hx
      rw [List.find?_cons_of_neg _ (by simp [hxk])]
      exact ih hwf'.2 hx

/-- `find?` keyed to the upserted row's key sees exactly that row. -/
theorem find?_upsert (db : DB) (r : Row) (p : Row → Bool) :
    (upsert db r).find? (fun x => x.key == r.key && p x) =
      if p r then some r else none := by
  unfold upsert
  by_cases hany : db.any (fun x => x.key == r.key)
  · rw [if_pos hany]
    induction db with
    | nil => simp at hany
    | cons x rest ih =>
      rw [List.map_cons]
      by_cases hx : x.key == r.key
      · rw [if_pos hx]
        by_cases hp : p r
        · rw [List.find?_cons_of_pos _ (by simp [hp]), if_pos hp]
        · have hrest : (rest.map (fun x => if x.key == r.key then r else x)).find?
              (fun x => x.key == r.key && p x) = none := by
            apply List.find?_eq_none.mpr
            intro y hy
            rcases List.mem_map.mp hy with ⟨z, _, hz⟩
            by_cases hzk : z.key == r.key
            · rw [if_pos hzk] at hz
              subst hz; simp [hp]
            · rw [if_neg hzk] at hz
              subst hz; simp_all
          rw [List.find?_cons_of_neg _ (by simp [hp]), hrest, if_neg hp]
      · have hany' : rest.any (fun x => x.key == r.key) := by
          simp only [List.any_cons, hx, Bool.false_or] at hany
          exact hany
        rw [if_neg hx, List.find?_cons_of_neg _ (by simp_all)]
        exact ih hany'
  · rw [if_neg hany, List.find?_append]
    have h1 : db.find? (fun x => x.key == r.key && p x) = none := by
      apply find?_key_of_not_mem
      intro x hx
      have := (List.any_eq_false).mp (Bool.eq_false_iff.mpr hany) x hx
      simpa using this
    have h2 : [r].find? (fun x => x.key == r.key && p x) = if p r then some r else none := by
      cases hp : p r
      · rw [List.find?_cons_of_neg _ (by simp [hp]), if_neg (by simp [hp])]
        rfl
      · rw [List.find?_cons_of_pos _ (by simp [hp]), if_pos (by simp)]
    rw [h1, h2]
    cases hp : p r <;> simp

/-- Rows under other keys are untouched by an upsert. -/
theorem filter_ne_upsert (db : DB) (r : Row) :
    (upsert db r).filter (fun x => !(x.key == r.key)) =
      db.filter (fun x => !(x.key == r.key)) := by
  unfold upsert
  by_cases hany : db.any (fun x => x.key == r.key)
  · rw [if_pos hany]
    induction db with
    | nil => rfl
    | cons x rest ih =>
      rw [List.map_cons]
      by_cases hx : x.key == r.key
      · rw [if_pos hx, List.filter_cons_of_neg (by simp),
          List.filter_cons_of_neg (by simpa using hx)]
        by_cases hr : rest.any (fun x => x.key == r.key)
        · exact ih hr
        · rw [map_eq_self]
          intro a ha
          have : (a.key == r.key) = false := by
            have := (List.any_eq_false).mp (Bool.eq_false_iff.mpr hr) a ha
            simpa using this
          rw [if_neg (by simp [this])]
      · have hany' : rest.any (fun x => x.key == r.key) := by
          simp only [List.any_cons, hx, Bool.false_or] at hany
          exact hany
        rw [if_neg hx, List.filter_cons_of_pos (by simpa using hx),
          List.filter_cons_of_pos (by simpa using hx), ih hany']
  · rw [if_neg hany, List.filter_append, List.filter_cons_of_neg (by simp)]
    simp

/-- `find?_upsert` with the fresh row spelled out. -/
theorem find?_upsert_key (db : DB) (k : String) (val : JValue) (e : Option Int)
    (ex : List (String × JValue)) (p : Row → Bool) :
    (upsert db ⟨k, val, e, ex⟩).find? (fun x => x.key == k && p x) =
      if p ⟨k, val, e, ex⟩ then some ⟨k, val, e, ex⟩ else none :=
  find?_upsert db ⟨k, val, e, ex⟩ p

/-- `_get` immediately after a `put` that overrode none of the built-in
columns finds the fresh row at any clock value. -/
theorem _get_put (db : DB) (k : String) (v : JValue) (d : PutData) (now : Int)
    (hk : d.keyOverride = none) (hv : d.valueOverride = none)
    (hd : d.expiresOverride = none) :
    _get (put db k v d) now k = ⟨parseValue (encodeValue v), true⟩ := by
  unfold put
  rw [hk, hv, hd]
  simp only [Option.getD_none]
  unfold _get
  rw [find?_upsert_key db k (encodeValue v) none d.extra
    (fun x => isLive now x), if_pos (by rfl)]

/-- The `%`-only pattern matches every string. -/
theorem likeMatch_percent (s : List Char) : likeMatch ['%'] s = true := by
  rw [show likeMatch ['%'] s = s.tails.any (fun t => likeMatch [] t) from rfl]
  apply List.any_eq_true.mpr
  exact ⟨[], (List.mem_tails [] s).mpr List.nil_suffix, rfl⟩

/-- A wildcard-free pattern followed by `%` matches exactly the strings
having the pattern as a literal prefix. -/
theorem likeMatch_lit_percent (cs s : List Char)
    (h : ∀ c ∈ cs, c ≠ '%' ∧ c ≠ '_') :
    likeMatch (cs ++ ['%']) s = cs.isPrefixOf s := by
  induction cs generalizing s with
  | nil => simp [likeMatch_percent]
  | cons c rest ih =>
    have hc := h c (List.mem_cons_self c rest)
    have hrest : ∀ x ∈ rest, x ≠ '%' ∧ x ≠ '_' :=
      fun x hx => h x (List.mem_cons_of_mem c hx)
    cases s with
    | nil =>
      rw [show likeMatch ((c :: rest) ++ ['%']) [] =
          (if c = '%' then (([] : List Char).tails.any (fun t => likeMatch (rest ++ ['%']) t))
           else false) from rfl,
        if_neg hc.1]
      rfl
    | cons c' s' =>
      rw [show likeMatch ((c :: rest) ++ ['%']) (c' :: s') =
          (if c = '%' then ((c' :: s').tails.any (fun t => likeMatch (rest ++ ['%']) t))
           else if c = '_' then likeMatch (rest ++ ['%']) s'
           else c == c' && likeMatch (rest ++ ['%']) s') from rfl,
        if_neg hc.1, if_neg hc.2, ih s' hrest]
      rfl

/-- `_get` on a key all of whose rows are dead reports not found. -/
theorem _get_dead (db : DB) (now : Int) (k : String)
    (h : ∀ r ∈ db, r.key = k → isLive now r = false) :
    _get db now k = ⟨.null, false⟩ := by
  unfold _get
  have hfind : db.find? (fun r => r.key == k && isLive now r) = none := by
    apply List.find?_eq_none.mpr
    intro x hx
    by_cases hxk : x.key = k
    · simp [hxk, h x hx hxk]
    · simp [hxk]
  rw [hfind]

/-- `_get` on a key holding a live row decodes that row's value. -/
theorem _get_live (db : DB) (now : Int) (k : String) (r₀ : Row)
    (hwf : WellFormed db) (hmem : r₀ ∈ db) (hkey : r₀.key = k)
    (hlive : isLive now r₀ = true) :
    _get db now k = ⟨parseValue r₀.value, true⟩ := by
  unfold _get
  rw [find?_unique db k r₀ (fun r => isLive now r) hwf hmem hkey, if_pos hlive]

/-- Everything in an upsert result is the fresh row or an original row. -/
theorem mem_upsert (db : DB) (r x : Row) (hx : x ∈ upsert db r) : x = r ∨ x ∈ db := by
  unfold upsert at hx
  by_cases hany : db.any (fun y => y.key == r.key)
  · rw [if_pos hany] at hx
    rcases List.mem_map.mp hx with ⟨z, hz, hzx⟩
    by_cases hzk : z.key == r.key
    · rw [if_pos hzk] at hzx
      exact Or.inl hzx.symm
    · rw [if_neg hzk] at hzx
      exact Or.inr (hzx ▸ hz)
  · rw [if_neg hany] at hx
    rcases List.mem_append.mp hx with hdb | hr
    · exact Or.inr hdb
    · exact Or.inl (by simpa using hr)

/-- A member of an upsert result carrying the upserted key is the fresh
row itself. -/
theorem mem_upsert_key (db : DB) (r x : Row) (hx : x ∈ upsert db r)
    (hk : x.key = r.key) : x = r := by
  rcases mem_upsert db r x hx with h | h
  · exact h
  · unfold upsert at hx
    by_cases hany : db.any (fun y => y.key == r.key)
    · rw [if_pos hany] at hx
      rcases List.mem_map.mp hx with ⟨z, hz, hzx⟩
      by_cases hzk : z.key == r.key
      · rw [if_pos hzk] at hzx
        exact hzx.symm
      · rw [if_neg hzk] at hzx
        exact absurd (hzx ▸ hk) (by simpa using hzk)
    · have := (List.any_eq_false).mp (Bool.eq_false_iff.mpr hany) x h
      exact absurd hk (by simpa using this)

/-- `filter_ne_upsert` with the fresh row spelled out. -/
theorem filter_ne_upsert_key (db : DB) (k : String) (val : JValue) (e : Option Int)
    (ex : List (String × JValue)) :
    (upsert db ⟨k, val, e, ex⟩).filter (fun x => !(x.key == k)) =
      db.filter (fun x => !(x.key == k)) :=
  filter_ne_upsert db ⟨k, val, e, ex⟩

/-! Claim theorems. -/

/-- C2: for every key whose row is absent or expired
(`expires` non-null and at or before the current clock), `get` fails
with KeyNotFound, `getOrNull` returns null, `has` is false and `delete`
removes nothing and reports false — the physically present expired row
is indistinguishable from an absent one on every read and delete path. -/
theorem c2_dead_key_indistinguishable (db : DB) (now : Int) (k : String)
    (h : ∀ r ∈ db, r.key = k → isLive now r = false) :
    get db now k = .error (.keyNotFound k) ∧
    getOrNull db now k = .null ∧
    has db now k = false ∧
    delete db now k = (db, false) := by
  have hget := _get_dead db now k h
  refine ⟨?_, ?_, ?_, ?_⟩
  · unfold get
    rw [hget]
    rfl
  · unfold getOrNull getOrDefault
    rw [hget]
    rfl
  · unfold has
    rw [hget]
  · unfold delete
    have hfilter : db.filter (fun r => !(r.key == k && isLive now r)) = db := by
      apply List.filter_eq_self.mpr
      intro x hx
      by_cases hxk : x.key = k
      · simp [hxk, h x hx hxk]
      · simp [hxk]
    rw [hfilter]
    simp

/-- C2 witness: a physically stored but expired row, observed after its
expiration time. -/
theorem c2_witness :
    (∀ r ∈ ([⟨"k", encodeValue (JValue.str "x"), some 3, []⟩] : DB),
        r.key = "k" → isLive 5 r = false) ∧
    (get [⟨"k", encodeValue (JValue.str "x"), some 3, []⟩] 5 "k" =
        .error (.keyNotFound "k") ∧
      getOrNull [⟨"k", encodeValue (JValue.str "x"), some 3, []⟩] 5 "k" = .null ∧
      has [⟨"k", encodeValue (JValue.str "x"), some 3, []⟩] 5 "k" = false ∧
      delete [⟨"k", encodeValue (JValue.str "x"), some 3, []⟩] 5 "k" =
        ([⟨"k", encodeValue (JValue.str "x"), some 3, []⟩], false)) :=
  ⟨by decide,
   c2_dead_key_indistinguishable [⟨"k", encodeValue (JValue.str "x"), some 3, []⟩] 5 "k"
     (by decide)⟩

/-- C3 counterexample: the claim quantifies over every extra-columns
argument, but `Object.assign(\x7bkey, value, expires: null\x7d, data)` lets the
data's fields override every built-in column. An `expires = 0` field
stores a row that is already expired at clock 5, so the subsequent
`has` does not see the new value and the row's `expires` is not null; a
`key = "zzz"` field redirects the upsert to another key, so `has k`
stays false; a `value` field displaces the stored value, so `get k`
does not return `v`. -/
theorem c3_counterexample :
    put [] "k" (JValue.str "v") ⟨none, none, some (some 0), []⟩ =
      [⟨"k", encodeValue (JValue.str "v"), some 0, []⟩] ∧
    has (put [] "k" (JValue.str "v") ⟨none, none, some (some 0), []⟩) 5 "k" = false ∧
    has (put [] "k" (JValue.str "v") ⟨some "zzz", none, none, []⟩) 0 "k" = false ∧
    has (put [] "k" (JValue.str "v") ⟨some "zzz", none, none, []⟩) 0 "zzz" = true ∧
    get (put [] "k" (JValue.str "v") ⟨none, some (JValue.str "X"), none, []⟩) 0 "k" =
      .ok (JValue.str "X") := by
  exact ⟨rfl, rfl, rfl, rfl, rfl⟩

/-- C3 (amended): for every extra-columns argument that overrides none
of the built-in `key`, `value` and `expires` columns, `put`
insert-or-replaces the row for the key with `expires` cleared to null,
so the key is revived whatever its previous state and a subsequent
`has`/`get` at any clock immediately sees the new value; rows under
other keys are untouched. -/
theorem c3_put_clears_expires (db : DB) (now : Int) (k : String) (v : JValue)
    (extra : List (String × JValue)) (hv : Representable v = true) :
    has (put db k v ⟨none, none, none, extra⟩) now k = true ∧
    get (put db k v ⟨none, none, none, extra⟩) now k = .ok v ∧
    (∀ r ∈ put db k v ⟨none, none, none, extra⟩, r.key = k → r.expires = none) ∧
    (put db k v ⟨none, none, none, extra⟩).filter (fun r => !(r.key == k)) =
      db.filter (fun r => !(r.key == k)) := by
  have hget := _get_put db k v ⟨none, none, none, extra⟩ now rfl rfl rfl
  refine ⟨?_, ?_, ?_, ?_⟩
  · unfold has
    rw [hget]
  · unfold get
    rw [hget]
    show Except.ok (parseValue (encodeValue v)) = Except.ok v
    rw [parse_encode v hv]
  · intro r hr hrk
    have : r = ⟨k, encodeValue v, none, extra⟩ :=
      mem_upsert_key db ⟨k, encodeValue v, none, extra⟩ r hr hrk
    rw [this]
  · exact filter_ne_upsert_key db k (encodeValue v) none extra

/-- C3 witness: reviving an expired row by `put` with an inert extra
column and no built-in overrides. -/
theorem c3_witness :
    Representable (JValue.str "v") = true ∧
    (has (put [⟨"k", encodeValue (JValue.str "old"), some 0, []⟩] "k"
        (JValue.str "v") ⟨none, none, none, [("owner", JValue.str "t")]⟩) 5 "k" = true ∧
      get (put [⟨"k", encodeValue (JValue.str "old"), some 0, []⟩] "k"
        (JValue.str "v") ⟨none, none, none, [("owner", JValue.str "t")]⟩) 5 "k" =
        .ok (JValue.str "v")) :=
  ⟨rfl,
   ⟨(c3_put_clears_expires [⟨"k", encodeValue (JValue.str "old"), some 0, []⟩]
       5 "k" (JValue.str "v") [("owner", JValue.str "t")] rfl).1,
    (c3_put_clears_expires [⟨"k", encodeValue (JValue.str "old"), some 0, []⟩]
       5 "k" (JValue.str "v") [("owner", JValue.str "t")] rfl).2.1⟩⟩

/-- C4: `put` then `get` round-trips every JSON-representable value
exactly, and the single-field envelope keeps a stored `undefined`
distinguishable both from a missing row (`has` still answers true, and
`getOrNull` yields `undefined` rather than the `null` it yields on a
missing row) and from a stored `null`. -/
theorem c4_roundtrip (db : DB) (now : Int) (k : String) (v : JValue)
    (h : Representable v = true) :
    get (put db k v noData) now k = .ok v ∧
    getOrNull (put db k .undefined noData) now k = .undefined ∧
    has (put db k .undefined noData) now k = true ∧
    getOrNull (put db k .null noData) now k = .null ∧
    encodeValue .undefined ≠ encodeValue .null := by
  refine ⟨?_, ?_, ?_, ?_, ?_⟩
  · unfold get
    rw [_get_put db k v noData now rfl rfl rfl]
    show Except.ok (parseValue (encodeValue v)) = Except.ok v
    rw [parse_encode v h]
  · unfold getOrNull getOrDefault
    rw [_get_put db k .undefined noData now rfl rfl rfl]
    rfl
  · unfold has
    rw [_get_put db k .undefined noData now rfl rfl rfl]
  · unfold getOrNull getOrDefault
    rw [_get_put db k .null noData now rfl rfl rfl]
    rfl
  · intro hcontr
    simp [encodeValue, normalize] at hcontr

/-- C4 witness: a nested representable value round-trips through an
arbitrary store state. -/
theorem c4_witness :
    Representable (JValue.obj [("a", JValue.arr [JValue.num 1, JValue.null])]) = true ∧
    get (put [] "k" (JValue.obj [("a", JValue.arr [JValue.num 1, JValue.null])]) noData)
        0 "k" = .ok (JValue.obj [("a", JValue.arr [JValue.num 1, JValue.null])]) :=
  ⟨rfl,
   (c4_roundtrip [] 0 "k" (JValue.obj [("a", JValue.arr [JValue.num 1, JValue.null])])
     rfl).1⟩

/-- C6: `gc` physically deletes exactly the rows whose `expires` is
non-null and at or before the clock — a row survives iff it was stored
and not expired — and an immediately repeated `gc` deletes nothing
more. -/
theorem c6_gc_exact_and_idempotent (db : DB) (now : Int) :
    (∀ r, r ∈ gc db now ↔ (r ∈ db ∧ isExpired now r = false)) ∧
    gc (gc db now) now = gc db now := by
  constructor
  · intro r
    unfold gc
    rw [List.mem_filter]
    simp
  · unfold gc
    apply List.filter_eq_self.mpr
    intro a ha
    exact (List.mem_filter.mp ha).2

/-- The fixture of the pattern-matching property: exactly the live keys
`key-1`, `key-2`, `qqq-1`. -/
def patternDb : DB :=
  [⟨"key-1", encodeValue (JValue.str "value-1"), none, []⟩,
   ⟨"key-2", encodeValue (JValue.str "value-2"), none, []⟩,
   ⟨"qqq-1", encodeValue (JValue.str "www-1"), none, []⟩]

/-- C8: the wildcard translation maps `?` to the engine's
single-character wildcard `_` and `*` to the multi-character wildcard
`%`, passing every other character through literally (including the
engine-reserved `%` and `_`); with exactly the live keys `key-1`,
`key-2`, `qqq-1` stored, `count "key-*"` is 2, `count "qqq-*"` is 1 and
`count "~~~~"` is 0 at every clock value. -/
theorem c8_wildcard_translation (now : Int) (c : Char) :
    translateChar '?' = '_' ∧
    translateChar '*' = '%' ∧
    (c ≠ '?' → c ≠ '*' → translateChar c = c) ∧
    count patternDb now (some "key-*") noWhere = 2 ∧
    count patternDb now (some "qqq-*") noWhere = 1 ∧
    count patternDb now (some "~~~~") noWhere = 0 := by
  refine ⟨rfl, rfl, ?_, rfl, rfl, rfl⟩
  intro h1 h2
  unfold translateChar
  rw [if_neg h1, if_neg h2]

/-- C8 witness: the literal pass-through at a concrete non-wildcard
engine-reserved character together with the concrete counts. -/
theorem c8_witness :
    translateChar '%' = '%' ∧
    count patternDb 0 (some "key-*") noWhere = 2 ∧
    count patternDb 0 (some "qqq-*") noWhere = 1 ∧
    count patternDb 0 (some "~~~~") noWhere = 0 :=
  ⟨(c8_wildcard_translation 0 '%').2.2.1 (by decide) (by decide),
   (c8_wildcard_translation 0 '%').2.2.2.1,
   (c8_wildcard_translation 0 '%').2.2.2.2.1,
   (c8_wildcard_translation 0 '%').2.2.2.2.2⟩

/-- The enumerable own fields of a sequelize transaction object as the
facade's misrouted `put` merges them into the row (none of them is named
`key`, `value` or `expires`). -/
def txnObjFields : List (String × JValue) := [("id", JValue.str "txn-1")]

/-- C9: the claim is the documented behavior, but the facade's `put`
forwards `(key, value, transaction)` into the instance signature
`(key, value, data, transaction)`: the transaction handle lands in the
extra-columns slot and the upsert runs with no transaction, so a facade
`put` given a transaction that is later rolled back remains visible in
the committed table (its key is present afterwards), while the same
`put` issued on the instance with the transaction properly passed is
rolled back without a trace. -/
theorem c9_facade_put_escapes_transaction :
    has (rollbackTx (facadePut (beginTx ⟨[], none⟩) "my-tran-key"
        (JValue.str "my-value") txnObjFields)).committed 0 "my-tran-key" = true ∧
    (rollbackTx (facadePut (beginTx ⟨[], none⟩) "my-tran-key"
        (JValue.str "my-value") txnObjFields)).committed =
      [⟨"my-tran-key", encodeValue (JValue.str "my-value"), none, txnObjFields⟩] ∧
    has (rollbackTx (putTx (beginTx ⟨[], none⟩) true "my-tran-key"
        (JValue.str "my-value") noData)).committed 0 "my-tran-key" = false := by
  exact ⟨rfl, rfl, rfl⟩

/-- C10: reading `tableName` on any prefix view — built directly from
the root store or by composing views — always throws a TypeError:
the view's getter invokes the master's `tableName` as a function, but
every view's master is the root store, whose `tableName` is a property
getter producing a string, and calling a string raises a TypeError. -/
theorem c10_view_tablename_throws (v : PrefixView) (m p q : String) :
    viewTableName v = .error .typeError ∧
    viewTableName (instanceMkView m p) = .error .typeError ∧
    viewTableName (viewMkView v q) = .error .typeError := by
  exact ⟨rfl, rfl, rfl⟩

/-- The expire update never changes a row's key. -/
theorem expireUpd_key (now : Int) (k : String) (t : Int) (r : Row) :
    (expireUpd now k t r).key = r.key := by
  unfold expireUpd
  split <;> rfl

/-- C5: `expire` sets `expires` to `now + seconds` on the live row under
the key and fails with KeyNotFound when no live row matches; after a
successful `expire`, `get` still succeeds at any clock before the
deadline, and from the deadline on `get` fails with KeyNotFound and
`has` is false with no `gc` involved — the previously unlimited or
longer lifetime is cut to exactly the deadline. -/
theorem c5_expire_window (db : DB) (now : Int) (k : String) (t : Int)
    (hwf : WellFormed db) :
    ((∀ r ∈ db, r.key = k → isLive now r = false) →
      expire db now k t = .error (.keyNotFound k)) ∧
    (∀ r₀ ∈ db, r₀.key = k → isLive now r₀ = true →
      expire db now k t = .ok (db.map (expireUpd now k t)) ∧
      (∀ r ∈ db.map (expireUpd now k t), r.key = k → r.expires = some (now + t)) ∧
      (∀ now' : Int, now' < now + t →
        get (db.map (expireUpd now k t)) now' k = .ok (parseValue r₀.value) ∧
        has (db.map (expireUpd now k t)) now' k = true) ∧
      (∀ now' : Int, now + t ≤ now' →
        get (db.map (expireUpd now k t)) now' k = .error (.keyNotFound k) ∧
        has (db.map (expireUpd now k t)) now' k = false)) := by
  constructor
  · intro hdead
    have hfilter : db.filter (fun r => r.key == k && isLive now r) = [] := by
      apply List.filter_eq_nil_iff.mpr
      intro x hx
      by_cases hxk : x.key = k
      · simp [hxk, hdead x hx hxk]
      · simp [hxk]
    unfold expire
    rw [hfilter]
    rfl
  · intro r₀ hmem hkey hlive
    have hmemf : r₀ ∈ db.filter (fun r => r.key == k && isLive now r) :=
      List.mem_filter.mpr ⟨hmem, by simp [hkey, hlive]⟩
    have hna : ¬((db.filter (fun r => r.key == k && isLive now r)).length < 1) :=
      Nat.not_lt.mpr (List.length_pos.mpr (List.ne_nil_of_mem hmemf))
    have hkeys : (db.map (expireUpd now k t)).map Row.key = db.map Row.key := by
      rw [List.map_map]
      apply List.map_congr_left
      intro a _
      exact expireUpd_key now k t a
    have hwf' : WellFormed (db.map (expireUpd now k t)) := by
      unfold WellFormed
      rw [hkeys]
      exact hwf
    have h₀ : expireUpd now k t r₀ = { r₀ with expires := some (now + t) } := by
      unfold expireUpd
      rw [if_pos (by simp [hkey, hlive])]
    have hmem' : expireUpd now k t r₀ ∈ db.map (expireUpd now k t) :=
      List.mem_map_of_mem (expireUpd now k t) hmem
    have hkey' : (expireUpd now k t r₀).key = k := by
      rw [expireUpd_key]
      exact hkey
    have huniq : ∀ r ∈ db.map (expireUpd now k t), r.key = k →
        r = expireUpd now k t r₀ := by
      intro r hr hrk
      rcases List.mem_map.mp hr with ⟨z, hz, hzr⟩
      have hzk : z.key = r₀.key := by
        rw [hkey, ← hrk, ← hzr, expireUpd_key]
      have hz₀ : z = r₀ := List.inj_on_of_nodup_map hwf hz hmem hzk
      rw [← hzr, hz₀]
    refine ⟨?_, ?_, ?_, ?_⟩
    · unfold expire
      simp only []
      rw [if_neg hna]
    · intro r hr hrk
      rw [huniq r hr hrk, h₀]
    · intro now' hlt
      have hlive' : isLive now' (expireUpd now k t r₀) = true := by
        rw [h₀]
        simp [isLive, hlt]
      have hget := _get_live (db.map (expireUpd now k t)) now' k
        (expireUpd now k t r₀) hwf' hmem' hkey' hlive'
      have hval : (expireUpd now k t r₀).value = r₀.value := by
        rw [h₀]
      constructor
      · unfold get
        rw [hget, hval]
        rfl
      · unfold has
        rw [hget]
    · intro now' hge
      have hdead' : ∀ r ∈ db.map (expireUpd now k t), r.key = k →
          isLive now' r = false := by
        intro r hr hrk
        rw [huniq r hr hrk, h₀]
        simp [isLive, Int.not_lt.mpr hge]
      have hget := _get_dead (db.map (expireUpd now k t)) now' k hdead'
      constructor
      · unfold get
        rw [hget]
        rfl
      · unfold has
        rw [hget]

/-- C5 witness: a never-expiring row is cut to a five-second lifetime
and observed inside and past the window. -/
theorem c5_witness :
    WellFormed [⟨"a", encodeValue (JValue.str "x"), none, []⟩] ∧
    isLive 0 (⟨"a", encodeValue (JValue.str "x"), none, []⟩ : Row) = true ∧
    (expire [⟨"a", encodeValue (JValue.str "x"), none, []⟩] 0 "a" 5 =
        .ok [⟨"a", encodeValue (JValue.str "x"), some 5, []⟩] ∧
      get [⟨"a", encodeValue (JValue.str "x"), some 5, []⟩] 2 "a" =
        .ok (JValue.str "x") ∧
      get [⟨"a", encodeValue (JValue.str "x"), some 5, []⟩] 7 "a" =
        .error (.keyNotFound "a") ∧
      has [⟨"a", encodeValue (JValue.str "x"), some 5, []⟩] 7 "a" = false) := by
  have h := (c5_expire_window [⟨"a", encodeValue (JValue.str "x"), none, []⟩]
    0 "a" 5 (by unfold WellFormed; decide)).2 ⟨"a", encodeValue (JValue.str "x"), none, []⟩
    (List.mem_singleton.mpr rfl) rfl rfl
  refine ⟨by unfold WellFormed; decide, rfl, h.1, ?_, ?_, ?_⟩
  · have := (h.2.2.1 2 (by decide)).1
    exact this.trans (by rw [parse_encode (JValue.str "x") rfl])
  · exact (h.2.2.2 7 (by decide)).1
  · exact (h.2.2.2 7 (by decide)).2

/-- A namespace string is clean when it contains no wildcard characters
of either the public pattern language or the underlying engine. -/
def cleanPfx (p : String) : Bool :=
  p.data.all (fun c => !(c == '%') && !(c == '_') && !(c == '*') && !(c == '?'))

/-- Fixture refuting C7 as universally stated: a backing store already
holding the unprefixed key `k` and an unrelated key `zzz`. -/
def isolationDb : DB :=
  [⟨"k", encodeValue (JValue.str "old"), none, []⟩,
   ⟨"zzz", encodeValue (JValue.str "z"), none, []⟩]

/-- C7 counterexample: with the wildcard prefix `*` over a store already
holding a live unprefixed `k` and a key `zzz`, the view's `put`
leaves `store.has "k"` true (the claim demands false for every prefix
and key), and the view's unqualified `count` answers 3 although only one
stored row actually lies in the `*` namespace — the prefix's own `*` is
translated to `%`, so rows outside the namespace are counted. -/
theorem c7_counterexample :
    has (prefixPut "*" isolationDb "k" (JValue.str "v") noData) 0 "k" = true ∧
    prefixCount "*" (prefixPut "*" isolationDb "k" (JValue.str "v") noData) 0
      none noWhere = 3 ∧
    ((prefixPut "*" isolationDb "k" (JValue.str "v") noData).filter
      (fun r => ("*".data).isPrefixOf r.key.data)).length = 1 := by
  exact ⟨rfl, rfl, rfl⟩

/-- Translation is the identity on clean namespace strings. -/
theorem translate_clean (p : String) (h : cleanPfx p = true) :
    p.data.map translateChar = p.data := by
  apply map_eq_self
  intro c hc
  have hx := List.all_eq_true.mp h c hc
  simp only [Bool.and_eq_true, Bool.not_eq_true', beq_eq_false_iff_ne] at hx
  unfold translateChar
  rw [if_neg hx.2, if_neg hx.1.2]

/-- The combined row predicate under a clean prefix and absent pattern
is liveness plus a literal prefix test on the key. -/
theorem rowPred_clean (pfx : String) (h : cleanPfx pfx = true) (now : Int) (r : Row) :
    rowPred now (some (convertKey pfx none)) noWhere r =
      (isLive now r && pfx.data.isPrefixOf r.key.data) := by
  have hpat : (translatePattern (pfx ++ "*")).data = pfx.data ++ ['%'] := by
    show ((pfx ++ "*").data.map translateChar) = _
    rw [show (pfx ++ "*").data = pfx.data ++ ['*'] from rfl, List.map_append,
      translate_clean pfx h]
    rfl
  have hclean : ∀ c ∈ pfx.data, c ≠ '%' ∧ c ≠ '_' := by
    intro c hc
    have hx := List.all_eq_true.mp h c hc
    simp only [Bool.and_eq_true, Bool.not_eq_true', beq_eq_false_iff_ne] at hx
    exact ⟨hx.1.1.1, hx.1.1.2⟩
  show (isLive now r && likeMatch (translatePattern (convertKey pfx none)).data r.key.data) = _
  rw [show convertKey pfx none = pfx ++ "*" from rfl, hpat,
    likeMatch_lit_percent pfx.data r.key.data hclean]

/-- C7 (amended): for every clean non-empty prefix `p` and a key `k`
with no live unprefixed row, after `store.prefix(p).put(k, v)` both
`store.get(p ++ k)` and the view's `get k` return `v` while the
unprefixed `store.has k` stays false; the view's `count`/`all` with an
absent pattern are scoped by the translated `p ++ "*"`, counting and
listing exactly the live rows whose key literally starts with `p`, with
`all` stripping the prefix off each returned key. -/
theorem c7_prefix_isolation (pfx : String) (db : DB) (now : Int) (k : String)
    (v : JValue) (hclean : cleanPfx pfx = true) (hne : pfx ≠ "")
    (hdead : ∀ r ∈ db, r.key = k → isLive now r = false)
    (hrep : Representable v = true) :
    get (prefixPut pfx db k v noData) now (pfx ++ k) = .ok v ∧
    prefixGet pfx (prefixPut pfx db k v noData) now k = .ok v ∧
    has (prefixPut pfx db k v noData) now k = false ∧
    (∀ db₂ : DB, prefixCount pfx db₂ now none noWhere =
      (db₂.filter (fun r => isLive now r && pfx.data.isPrefixOf r.key.data)).length) ∧
    (∀ db₂ : DB, prefixAll pfx db₂ now none none none noWhere =
      (db₂.filter (fun r => isLive now r && pfx.data.isPrefixOf r.key.data)).map
        (fun r => MetaRecord.mk (r.key.drop pfx.length) (parseValue r.value))) := by
  have hget : get (put db (pfx ++ k) v noData) now (pfx ++ k) = .ok v := by
    unfold get
    rw [_get_put db (pfx ++ k) v noData now rfl rfl rfl]
    show Except.ok (parseValue (encodeValue v)) = Except.ok v
    rw [parse_encode v hrep]
  refine ⟨hget, hget, ?_, ?_, ?_⟩
  · have hlen : 0 < pfx.length := by
      cases hs : pfx.data with
      | nil => exact absurd (by cases pfx; simp_all) hne
      | cons c cs => simp [String.length, hs]
    have hneq : pfx ++ k ≠ k := by
      intro hcontr
      have := congrArg String.length hcontr
      rw [String.length_append] at this
      omega
    have hdead' : ∀ r ∈ prefixPut pfx db k v noData, r.key = k →
        isLive now r = false := by
      intro r hr hrk
      rcases mem_upsert db ⟨pfx ++ k, encodeValue v, none, []⟩ r hr with hnew | hold
      · exact absurd (hrk.symm.trans (congrArg Row.key hnew)) (fun hc => hneq hc.symm)
      · exact hdead r hold hrk
    unfold has
    rw [_get_dead (prefixPut pfx db k v noData) now k hdead']
  · intro db₂
    unfold prefixCount count
    rw [List.filter_congr (fun r _ => rowPred_clean pfx hclean now r)]
  · intro db₂
    unfold prefixAll all
    rw [List.filter_congr (fun r _ => rowPred_clean pfx hclean now r)]
    simp only [Option.getD_none, List.drop_zero, List.map_map]
    apply List.map_congr_left
    intro r _
    rfl

/-- C7 witness: the test scenario, prefix `pre-`, on an empty store then
alongside one foreign row. -/
theorem c7_witness :
    cleanPfx "pre-" = true ∧
    (get (prefixPut "pre-" [] "k" (JValue.str "v") noData) 0 ("pre-" ++ "k") =
        .ok (JValue.str "v") ∧
      has (prefixPut "pre-" [] "k" (JValue.str "v") noData) 0 "k" = false ∧
      prefixCount "pre-"
        (put (prefixPut "pre-" [] "k" (JValue.str "v") noData) "zzz"
          (JValue.str "w") noData) 0 none noWhere = 1) := by
  have h := c7_prefix_isolation "pre-" [] 0 "k" (JValue.str "v") (by decide)
    (by decide) (by intro r hr; cases hr) rfl
  refine ⟨by decide, h.1, h.2.2.1, ?_⟩
  rw [h.2.2.2.1 (put (prefixPut "pre-" [] "k" (JValue.str "v") noData) "zzz"
    (JValue.str "w") noData)]
  rfl

end SequelizeDbMeta
